import Mathlib

/-!
Verification of `evalml.pipelines.components.transformers.preprocessing.
delayed_feature_transformer.DelayedFeatureTransformer` (file
`delayed_feature_transformer.py`).

The transformer's `transform` method builds, for a positionally indexed
pandas DataFrame `X` and optional Series `y`, delayed (lagged) copies of the
feature columns and of the target.  We embed the dataframe as a row count
plus an ordered association list of named columns of cells, where a cell is
`Option Int` (`none` models a pandas missing value / NaN), and embed the
pandas primitives the source relies on (`Series.shift`, column assignment
with index alignment, `DataFrame.assign`, `DataFrame.empty`) for frames with
a default integer index.
-/

namespace EvalML

/-- A cell of a column: `none` models a pandas missing value (NaN). -/
abbrev Cell := Option Int

/-- A positionally indexed dataframe (default `RangeIndex`): a row count and
named columns in order.  Well-formed frames have every column of length
`nrows`; theorems take that as a hypothesis where they need it. -/
structure Frame where
  nrows : Nat
  cols : List (String × List Cell)
deriving DecidableEq

/-- pandas `Series.shift(t)`: for `t ≥ 0`, row `i` receives the value of row
`i - t`, the first `t` rows become missing, and the length is unchanged; for
`t < 0` the series is shifted the other way. -/
def shiftSeries (t : Int) (v : List Cell) : List Cell :=
  if 0 ≤ t then (List.replicate t.toNat (none : Cell) ++ v).take v.length
  else v.drop (-t).toNat ++ List.replicate (min (-t).toNat v.length) (none : Cell)

/-- Align a value list to `n` rows, as pandas aligns a Series being assigned
into a frame with default integer index: truncate to the frame's rows and pad
missing positions with NaN. -/
def align (n : Nat) (v : List Cell) : List Cell :=
  (v ++ List.replicate n (none : Cell)).take n

/-- The column names of a frame, in order. -/
def Frame.names (f : Frame) : List String :=
  f.cols.map Prod.fst

/-- pandas `df[name] = value` on a frame with a default integer index.  When
the frame's index is empty and the value is non-empty, pandas adopts the
value's index and reindexes the existing columns (making them all-missing at
the new length); otherwise the value is aligned to the frame's rows and the
column is replaced in place when the name exists, or appended when it is new. -/
def Frame.setCol (f : Frame) (name : String) (v : List Cell) : Frame :=
  if f.nrows = 0 ∧ v ≠ [] then
    if ((f.cols.map fun c =>
          (c.1, List.replicate v.length (none : Cell))).map Prod.fst).contains name then
      ⟨v.length, (f.cols.map fun c => (c.1, List.replicate v.length (none : Cell))).map
        fun c => if c.1 = name then (c.1, v) else c⟩
    else
      ⟨v.length, (f.cols.map fun c =>
        (c.1, List.replicate v.length (none : Cell))) ++ [(name, v)]⟩
  else
    if f.names.contains name then
      ⟨f.nrows, f.cols.map fun c => if c.1 = name then (c.1, align f.nrows v) else c⟩
    else
      ⟨f.nrows, f.cols ++ [(name, align f.nrows v)]⟩

/-- pandas `DataFrame.assign(**bindings)` with pre-evaluated (non-callable)
values: set each binding on a copy, left to right, later bindings overwriting
earlier ones of the same name. -/
def Frame.assign (f : Frame) (bindings : List (String × List Cell)) : Frame :=
  bindings.foldl (fun acc p => acc.setCol p.1 p.2) f

/-- pandas `DataFrame.empty`: true when either axis has length zero. -/
def Frame.isEmpty (f : Frame) : Bool :=
  f.nrows == 0 || f.cols.isEmpty

/-- Look a column up by name (first occurrence, as column access does). -/
def colLookup : List (String × List Cell) → String → Option (List Cell)
  | [], _ => none
  | c :: cs, n => if c.1 = n then some c.2 else colLookup cs n

/-- The values of the column called `name`, if present. -/
def Frame.col? (f : Frame) (name : String) : Option (List Cell) :=
  colLookup f.cols name

/-- The cell of a value list at row `i` (missing when out of range). -/
def cell (v : List Cell) (i : Nat) : Cell :=
  v.getD i none

/-- Python `range(a, b)` over integers, as a list. -/
def intRange (a b : Int) : List Int :=
  (List.range (b - a).toNat).map fun i : Nat => a + i

/-- The last value bound to a name in a list of bindings (the binding that
survives a left-to-right sequence of column assignments). -/
def lookupLast : List (String × List Cell) → String → Option (List Cell)
  | [], _ => none
  | p :: L, n =>
    match lookupLast L n with
    | some v => some v
    | none => if p.1 = n then some p.2 else none

/-- The configuration fixed by `DelayedFeatureTransformer.__init__`, with the
source's default arguments.  `random_state` is stored but never read by
`transform`. -/
structure DelayedFeatureTransformer where
  max_delay : Int := 2
  delay_features : Bool := true
  delay_target : Bool := true
  gap : Int := 1
  random_state : Int := 0
deriving DecidableEq

namespace DelayedFeatureTransformer

/-- `self.start_delay_for_target = int(gap == 0)` from `__init__`. -/
def start_delay_for_target (c : DelayedFeatureTransformer) : Int :=
  if c.gap = 0 then 1 else 0

/-- The feature-delay column name `f"{col}_delay_{t}"`. -/
def delayName (col : String) (t : Int) : String :=
  col ++ "_delay_" ++ toString t

/-- The target-delay column name `f"target_delay_{t}"`. -/
def targetDelayName (t : Int) : String :=
  "target_delay_" ++ toString t

/-- The bindings of the feature dict comprehension
`{f"{col}_delay_{t}": X[col].shift(t) for t in range(1, max_delay+1) for col in X}`,
in Python dict insertion order (`t` is the outer loop). -/
def featureBindings (X : Frame) (max_delay : Int) : List (String × List Cell) :=
  (intRange 1 (max_delay + 1)).flatMap fun t =>
    X.cols.map fun c => (delayName c.1 t, shiftSeries t c.2)

/-- The bindings of the target dict comprehension
`{f"target_delay_{t}": y.shift(t) for t in range(start_delay_for_target, max_delay+1)}`. -/
def targetBindings (start max_delay : Int) (y : List Cell) : List (String × List Cell) :=
  (intRange start (max_delay + 1)).map fun t => (targetDelayName t, shiftSeries t y)

/-- Modelled from the spec: `_convert_to_woodwork_structure` and
`_convert_woodwork_types_wrapper` live in `evalml.utils.gen_utils`, which is
not part of the excerpt.  The spec treats them as the boundary adapter's
"coerce to canonical table representation" and "unwrap to native
column-oriented structure" operations, opaque conversions that preserve the
table's rows and columns, so their round trip is modelled as the identity on
frames. -/
def convertRoundTrip (X : Frame) : Frame := X

/-- The feature-delay stage of `transform`:
`if self.delay_features and not X.empty: X = X.assign(**{...})`. -/
def featureStage (c : DelayedFeatureTransformer) (X : Frame) : Frame :=
  if c.delay_features && !X.isEmpty then X.assign (featureBindings X c.max_delay)
  else X

/-- The target-delay stage of `transform`:
`if self.delay_target and y is not None: X = X.assign(**{...})`. -/
def targetStage (c : DelayedFeatureTransformer) (X : Frame) (y : Option (List Cell)) : Frame :=
  match y with
  | some ys =>
      if c.delay_target then
        X.assign (targetBindings c.start_delay_for_target c.max_delay ys)
      else X
  | none => X

/-- `DelayedFeatureTransformer.transform(X, y)`: an absent `X` becomes
`pd.DataFrame()` (the zero-row, zero-column frame); the woodwork round trips
are the identity conversions of `convertRoundTrip`; then the feature-delay
and target-delay stages run in order. -/
def transform (c : DelayedFeatureTransformer) (X? : Option Frame)
    (y : Option (List Cell)) : Frame :=
  let X := convertRoundTrip (X?.getD ⟨0, []⟩)
  convertRoundTrip (c.targetStage (c.featureStage X) y)

end DelayedFeatureTransformer

open DelayedFeatureTransformer

/-! Helper lemmas about the embedded pandas primitives. -/

theorem length_align (n : Nat) (v : List Cell) : (align n v).length = n := by
  simp only [align, List.length_take, List.length_append, List.length_replicate]
  omega

theorem align_eq_self {n : Nat} {v : List Cell} (h : v.length = n) : align n v = v := by
  subst h
  simp [align]

theorem shiftSeries_length {t : Int} (ht : 0 ≤ t) (v : List Cell) :
    (shiftSeries t v).length = v.length := by
  simp only [shiftSeries, if_pos ht, List.length_take, List.length_append,
    List.length_replicate]
  omega

theorem colLookup_eq_none_iff {cs : List (String × List Cell)} {m : String} :
    colLookup cs m = none ↔ m ∉ cs.map Prod.fst := by
  induction cs with
  | nil => simp [colLookup]
  | cons c cs ih =>
      by_cases h : c.1 = m
      · simp [colLookup, h]
      · simp [colLookup, h, ih, Ne.symm h]

theorem contains_names_iff {ns : List String} {m : String} :
    ns.contains m = true ↔ m ∈ ns := by
  simp [List.contains, List.elem_iff]

theorem colLookup_replace (cs : List (String × List Cell)) (n : String) (v : List Cell)
    (m : String) :
    colLookup (cs.map fun c => if c.1 = n then (c.1, v) else c) m =
      if n = m then (colLookup cs m).map fun _ => v else colLookup cs m := by
  induction cs with
  | nil => simp [colLookup]
  | cons c cs ih =>
      by_cases hc : c.1 = n <;> by_cases hm : c.1 = m <;> by_cases hnm : n = m <;>
        simp_all [colLookup]

theorem colLookup_append_single (cs : List (String × List Cell)) (n : String)
    (v : List Cell) (m : String) :
    colLookup (cs ++ [(n, v)]) m =
      match colLookup cs m with
      | some w => some w
      | none => if n = m then some v else none := by
  induction cs with
  | nil => simp [colLookup]
  | cons c cs ih => by_cases h : c.1 = m <;> simp [colLookup, h, ih]

theorem setCol_nrows {f : Frame} (h : f.nrows ≠ 0) (n : String) (v : List Cell) :
    (f.setCol n v).nrows = f.nrows := by
  unfold Frame.setCol
  rw [if_neg (by simp [h])]
  split <;> rfl

theorem setCol_col? {f : Frame} (h : f.nrows ≠ 0) (n : String) (v : List Cell)
    (m : String) :
    (f.setCol n v).col? m = if n = m then some (align f.nrows v) else f.col? m := by
  unfold Frame.setCol
  rw [if_neg (by simp [h])]
  by_cases hc : f.names.contains n = true
  · rw [if_pos hc]
    show colLookup (f.cols.map fun c => if c.1 = n then (c.1, align f.nrows v) else c) m = _
    rw [colLookup_replace]
    rcases hsome : colLookup f.cols n with _ | w
    · exact absurd (contains_names_iff.mp hc) (colLookup_eq_none_iff.mp hsome)
    · by_cases hm : n = m
      · subst hm
        simp [Frame.col?, hsome]
      · simp [Frame.col?, hm]
  · rw [if_neg hc]
    show colLookup (f.cols ++ [(n, align f.nrows v)]) m = _
    rw [colLookup_append_single]
    have hn : colLookup f.cols n = none :=
      colLookup_eq_none_iff.mpr fun hmem => hc (contains_names_iff.mpr hmem)
    by_cases hm : n = m
    · subst hm
      simp [Frame.col?, hn]
    · cases hcs : colLookup f.cols m <;> simp [Frame.col?, hm, hcs]

theorem assign_nrows {f : Frame} {L : List (String × List Cell)} (h : f.nrows ≠ 0) :
    (f.assign L).nrows = f.nrows := by
  induction L generalizing f with
  | nil => rfl
  | cons p L ih =>
      have h' : (f.setCol p.1 p.2).nrows ≠ 0 := by rw [setCol_nrows h]; exact h
      calc (f.assign (p :: L)).nrows = ((f.setCol p.1 p.2).assign L).nrows := rfl
        _ = (f.setCol p.1 p.2).nrows := ih h'
        _ = f.nrows := setCol_nrows h _ _

theorem lookupLast_cons (p : String × List Cell) (L : List (String × List Cell))
    (n : String) :
    lookupLast (p :: L) n =
      match lookupLast L n with
      | some v => some v
      | none => if p.1 = n then some p.2 else none := rfl

theorem assign_col? {f : Frame} {L : List (String × List Cell)} (h : f.nrows ≠ 0)
    (m : String) :
    (f.assign L).col? m =
      match lookupLast L m with
      | some v => some (align f.nrows v)
      | none => f.col? m := by
  induction L generalizing f with
  | nil => rfl
  | cons p L ih =>
      have h' : (f.setCol p.1 p.2).nrows ≠ 0 := by rw [setCol_nrows h]; exact h
      have hstep : (f.assign (p :: L)).col? m = ((f.setCol p.1 p.2).assign L).col? m := rfl
      rw [hstep, ih h', setCol_nrows h, setCol_col? h, lookupLast_cons]
      cases hl : lookupLast L m <;> by_cases hpm : p.1 = m <;> simp [hpm]

theorem lookupLast_eq_none_iff {L : List (String × List Cell)} {m : String} :
    lookupLast L m = none ↔ m ∉ L.map Prod.fst := by
  induction L with
  | nil => simp [lookupLast]
  | cons p L ih =>
      unfold lookupLast
      cases hl : lookupLast L m <;> by_cases hpm : p.1 = m <;>
        simp_all [eq_comm (a := m)]

theorem lookupLast_of_nodup {L : List (String × List Cell)} {m : String} {v : List Cell}
    (hnd : (L.map Prod.fst).Nodup) (hm : (m, v) ∈ L) : lookupLast L m = some v := by
  induction L with
  | nil => cases hm
  | cons p L ih =>
      rw [List.map_cons, List.nodup_cons] at hnd
      unfold lookupLast
      rcases List.mem_cons.mp hm with h | h
      · have hnone : lookupLast L m = none := by
          rw [lookupLast_eq_none_iff]
          rw [← h] at hnd
          exact hnd.1
        rw [hnone, ← h]
        simp
      · rw [ih hnd.2 h]

theorem setCol_mem_of_ne {f : Frame} (h : f.nrows ≠ 0) {n name : String}
    {w v : List Cell} (hne : n ≠ name) (hmem : (n, w) ∈ f.cols) :
    (n, w) ∈ (f.setCol name v).cols := by
  unfold Frame.setCol
  rw [if_neg (by simp [h])]
  split
  · exact List.mem_map.mpr ⟨(n, w), hmem, by simp [hne]⟩
  · exact List.mem_append_left _ hmem

theorem setCol_mem_rev {f : Frame} (h : f.nrows ≠ 0) {n name : String}
    {w v : List Cell} (hne : n ≠ name) (hmem : (n, w) ∈ (f.setCol name v).cols) :
    (n, w) ∈ f.cols := by
  unfold Frame.setCol at hmem
  rw [if_neg (by simp [h])] at hmem
  revert hmem
  split
  · intro hmem
    rcases List.mem_map.mp hmem with ⟨c, hc, hgc⟩
    by_cases hcn : c.1 = name
    · rw [if_pos hcn] at hgc
      exact absurd ((congrArg Prod.fst hgc).symm.trans hcn) hne
    · rw [if_neg hcn] at hgc
      rw [← hgc]
      exact hc
  · intro hmem
    rcases List.mem_append.mp hmem with hc | hc
    · exact hc
    · exact absurd (congrArg Prod.fst (List.mem_singleton.mp hc)) hne

theorem setCol_mem_self {f : Frame} (h : f.nrows ≠ 0) {name : String}
    {w v : List Cell} (hmem : (name, w) ∈ (f.setCol name v).cols) :
    w = align f.nrows v := by
  unfold Frame.setCol at hmem
  rw [if_neg (by simp [h])] at hmem
  revert hmem
  split
  · intro hmem
    rcases List.mem_map.mp hmem with ⟨c, hc, hgc⟩
    by_cases hcn : c.1 = name
    · rw [if_pos hcn] at hgc
      exact (congrArg Prod.snd hgc).symm
    · rw [if_neg hcn] at hgc
      exact absurd (congrArg Prod.fst hgc) hcn
  · next hcontains =>
      intro hmem
      rcases List.mem_append.mp hmem with hc | hc
      · have : name ∈ f.names := List.mem_map.mpr ⟨(name, w), hc, rfl⟩
        exact absurd (contains_names_iff.mpr this) (by simpa using hcontains)
      · exact congrArg Prod.snd (List.mem_singleton.mp hc)

theorem assign_mem_of_not_mem {f : Frame} {L : List (String × List Cell)}
    (h : f.nrows ≠ 0) {n : String} {w : List Cell} (hn : n ∉ L.map Prod.fst)
    (hmem : (n, w) ∈ f.cols) : (n, w) ∈ (f.assign L).cols := by
  induction L generalizing f with
  | nil => exact hmem
  | cons p L ih =>
      rw [List.map_cons, List.mem_cons] at hn
      push_neg at hn
      have h' : (f.setCol p.1 p.2).nrows ≠ 0 := by rw [setCol_nrows h]; exact h
      exact ih h' hn.2 (setCol_mem_of_ne h hn.1 hmem)

theorem assign_mem_rev {f : Frame} {L : List (String × List Cell)} (h : f.nrows ≠ 0)
    {n : String} {w : List Cell} (hn : n ∉ L.map Prod.fst)
    (hmem : (n, w) ∈ (f.assign L).cols) : (n, w) ∈ f.cols := by
  induction L generalizing f with
  | nil => exact hmem
  | cons p L ih =>
      rw [List.map_cons, List.mem_cons] at hn
      push_neg at hn
      have h' : (f.setCol p.1 p.2).nrows ≠ 0 := by rw [setCol_nrows h]; exact h
      exact setCol_mem_rev h hn.1 (ih h' hn.2 hmem)

theorem assign_mem_last {f : Frame} {L : List (String × List Cell)} (h : f.nrows ≠ 0)
    {m : String} {v w : List Cell} (hl : lookupLast L m = some v)
    (hmem : (m, w) ∈ (f.assign L).cols) : w = align f.nrows v := by
  induction L generalizing f with
  | nil => cases hl
  | cons p L ih =>
      rw [lookupLast_cons] at hl
      have h' : (f.setCol p.1 p.2).nrows ≠ 0 := by rw [setCol_nrows h]; exact h
      cases hL : lookupLast L m with
      | some v' =>
          rw [hL] at hl
          cases hl
          have := ih h' hL hmem
          rwa [setCol_nrows h] at this
      | none =>
          rw [hL] at hl
          by_cases hpm : p.1 = m
          · rw [if_pos hpm] at hl
            cases hl
            have hmem' : (m, w) ∈ (f.setCol p.1 p.2).cols :=
              assign_mem_rev h' (lookupLast_eq_none_iff.mp hL) hmem
            rw [hpm] at hmem'
            exact setCol_mem_self h hmem'
          · rw [if_neg hpm] at hl
            cases hl

theorem setCol_names (f : Frame) (n : String) (v : List Cell) :
    (f.setCol n v).names = f.names ∨ (f.setCol n v).names = f.names ++ [n] := by
  unfold Frame.setCol Frame.names
  split
  · split
    · left
      simp only [List.map_map]
      exact List.map_congr_left fun c _ => by by_cases h : c.1 = n <;> simp [h]
    · right
      simp only [List.map_append, List.map_map]
      rfl
  · split
    · left
      simp only [List.map_map]
      exact List.map_congr_left fun c _ => by by_cases h : c.1 = n <;> simp [h]
    · right
      simp

theorem names_prefix_setCol (f : Frame) (n : String) (v : List Cell) :
    f.names <+: (f.setCol n v).names := by
  rcases setCol_names f n v with h | h <;> rw [h]
  exact List.prefix_append _ _

theorem names_prefix_assign (f : Frame) (L : List (String × List Cell)) :
    f.names <+: (f.assign L).names := by
  induction L generalizing f with
  | nil => exact List.prefix_rfl
  | cons p L ih => exact (names_prefix_setCol f p.1 p.2).trans (ih _)

theorem mem_names_assign {f : Frame} {L : List (String × List Cell)} {n : String}
    (h : n ∈ (f.assign L).names) : n ∈ f.names ∨ n ∈ L.map Prod.fst := by
  induction L generalizing f with
  | nil => exact Or.inl h
  | cons p L ih =>
      have hstep : f.assign (p :: L) = (f.setCol p.1 p.2).assign L := rfl
      rw [hstep] at h
      rcases ih h with h1 | h1
      · rcases setCol_names f p.1 p.2 with he | he
        · rw [he] at h1
          exact Or.inl h1
        · rw [he] at h1
          rcases List.mem_append.mp h1 with h2 | h2
          · exact Or.inl h2
          · exact Or.inr (by simp [List.mem_singleton.mp h2])
      · exact Or.inr (by simp [h1])

theorem mem_intRange {a b t : Int} : t ∈ intRange a b ↔ a ≤ t ∧ t < b := by
  simp only [intRange, List.mem_map, List.mem_range]
  constructor
  · rintro ⟨i, hi, rfl⟩
    omega
  · rintro ⟨h1, h2⟩
    exact ⟨(t - a).toNat, by omega, by omega⟩

theorem intRange_eq_nil {a b : Int} (h : b ≤ a) : intRange a b = [] := by
  simp [intRange, Int.toNat_eq_zero.mpr (by omega : b - a ≤ 0)]

theorem intRange_eq_cons {a b : Int} (h : a < b) :
    intRange a b = a :: intRange (a + 1) b := by
  have hk : (b - a).toNat = (b - (a + 1)).toNat + 1 := by omega
  simp only [intRange, hk, List.range_succ_eq_map, List.map_cons, List.map_map]
  refine congrArg₂ List.cons (by simp) ?_
  exact List.map_congr_left fun i _ => by
    simp only [Function.comp_apply]
    push_cast
    ring

theorem mem_featureBindings {X : Frame} {md : Int} {n : String} {vals : List Cell}
    {t : Int} (hc : (n, vals) ∈ X.cols) (ht : t ∈ intRange 1 (md + 1)) :
    (delayName n t, shiftSeries t vals) ∈ featureBindings X md :=
  List.mem_flatMap.mpr ⟨t, ht, List.mem_map.mpr ⟨(n, vals), hc, rfl⟩⟩

theorem mem_targetBindings {start md t : Int} {y : List Cell}
    (ht : t ∈ intRange start (md + 1)) :
    (targetDelayName t, shiftSeries t y) ∈ targetBindings start md y :=
  List.mem_map.mpr ⟨t, ht, rfl⟩

theorem not_isEmpty_iff {X : Frame} :
    X.isEmpty = false ↔ X.nrows ≠ 0 ∧ X.cols ≠ [] := by
  simp [Frame.isEmpty, List.isEmpty_iff]

theorem cell_shiftSeries {t : Int} (ht : 0 ≤ t) {v : List Cell} {i : Nat}
    (hi : i < v.length) :
    cell (shiftSeries t v) i = if i < t.toNat then none else cell v (i - t.toNat) := by
  unfold cell shiftSeries
  rw [if_pos ht, List.getD_eq_getElem?_getD, List.getElem?_take, if_pos hi]
  by_cases hk : i < t.toNat
  · rw [List.getElem?_append_left (by simp only [List.length_replicate]; omega)]
    simp [List.getElem?_replicate, hk]
  · rw [List.getElem?_append_right (by simp only [List.length_replicate]; omega)]
    simp [List.length_replicate, hk, List.getD_eq_getElem?_getD]

/-! Lemmas about the two stages of `transform`. -/

theorem start_nonneg (c : DelayedFeatureTransformer) : 0 ≤ c.start_delay_for_target := by
  unfold DelayedFeatureTransformer.start_delay_for_target
  split <;> omega

theorem transform_eq (c : DelayedFeatureTransformer) (X : Frame)
    (y : Option (List Cell)) :
    transform c (some X) y = targetStage c (featureStage c X) y := rfl

theorem featureStage_pos {c : DelayedFeatureTransformer} {X : Frame}
    (h : (c.delay_features && !X.isEmpty) = true) :
    featureStage c X = X.assign (featureBindings X c.max_delay) := by
  simp [featureStage, h]

theorem featureStage_neg {c : DelayedFeatureTransformer} {X : Frame}
    (h : (c.delay_features && !X.isEmpty) = false) :
    featureStage c X = X := by
  simp [featureStage, h]

theorem featureStage_nrows {c : DelayedFeatureTransformer} {X : Frame}
    (h : X.nrows ≠ 0) : (featureStage c X).nrows = X.nrows := by
  cases hcond : (c.delay_features && !X.isEmpty) with
  | true => rw [featureStage_pos hcond]; exact assign_nrows h
  | false => rw [featureStage_neg hcond]

theorem targetStage_some_pos {c : DelayedFeatureTransformer}
    (hdt : c.delay_target = true) (X : Frame) (ys : List Cell) :
    targetStage c X (some ys) =
      X.assign (targetBindings c.start_delay_for_target c.max_delay ys) := by
  simp [targetStage, hdt]

theorem targetStage_some_neg {c : DelayedFeatureTransformer}
    (hdt : c.delay_target = false) (X : Frame) (ys : List Cell) :
    targetStage c X (some ys) = X := by
  simp [targetStage, hdt]

theorem targetStage_nrows {c : DelayedFeatureTransformer} {X : Frame}
    {y : Option (List Cell)} (h : X.nrows ≠ 0) :
    (targetStage c X y).nrows = X.nrows := by
  cases y with
  | none => rfl
  | some ys =>
      cases hdt : c.delay_target with
      | true => rw [targetStage_some_pos hdt]; exact assign_nrows h
      | false => rw [targetStage_some_neg hdt]

theorem featureStage_empty (c : DelayedFeatureTransformer) :
    featureStage c ⟨0, []⟩ = ⟨0, []⟩ :=
  featureStage_neg (by simp [Frame.isEmpty])

theorem setCol_empty_nrows {v : List Cell} (hv : v ≠ []) (n : String) :
    ((Frame.mk 0 []).setCol n v).nrows = v.length := by
  unfold Frame.setCol
  rw [if_pos ⟨rfl, hv⟩]
  split <;> rfl

/-! The claims. -/

/-- C3 (amended): for every configuration and every provided input table `X`
with at least one row, the table returned by `transform` has exactly as many
rows as `X`; the positional embedding adds columns but never drops, permutes
or appends rows.  (The unamended claim fails for a zero-row `X`: see the
counterexample, where the default configuration delays a one-element target
into the empty table and the output has one row, not zero.) -/
theorem row_count_preserved_nonempty (c : DelayedFeatureTransformer) (X : Frame)
    (y : Option (List Cell)) (h : X.nrows ≠ 0) :
    (transform c (some X) y).nrows = X.nrows := by
  rw [transform_eq]
  rw [targetStage_nrows (by rw [featureStage_nrows h]; exact h)]
  exact featureStage_nrows h

/-- C3 witness: a one-row table keeps its single row. -/
theorem row_count_preserved_nonempty_witness :
    (transform ⟨2, true, true, 1, 0⟩ (some ⟨1, [("a", [some 5])]⟩) none).nrows = 1 :=
  row_count_preserved_nonempty ⟨2, true, true, 1, 0⟩ ⟨1, [("a", [some 5])]⟩ none
    (by decide)

/-- C3 counterexample: for the zero-row, zero-column table and a one-element
target with the default configuration, the output row count is 1, not the
input's 0. -/
theorem row_count_empty_frame_cex :
    (transform ⟨2, true, true, 1, 0⟩ (some ⟨0, []⟩) (some [some 1])).nrows ≠
      (Frame.mk 0 []).nrows := by
  decide

/-- C5: when `delay_features` is false, `transform` performs only the
target-delay stage on the original table (so no feature-delay columns are
added); when `delay_target` is false or `y` is absent, `transform` performs
only the feature-delay stage (so no target-delay columns are added). -/
theorem disabled_flags_add_no_columns :
    (∀ (c : DelayedFeatureTransformer) (X : Frame) (y : Option (List Cell)),
      c.delay_features = false → transform c (some X) y = targetStage c X y) ∧
    (∀ (c : DelayedFeatureTransformer) (X : Frame) (y : Option (List Cell)),
      c.delay_target = false ∨ y = none → transform c (some X) y = featureStage c X) := by
  constructor
  · intro c X y hf
    rw [transform_eq, featureStage_neg (by rw [hf]; rfl)]
  · intro c X y h
    rw [transform_eq]
    rcases h with h | h
    · cases y with
      | none => rfl
      | some ys => exact targetStage_some_neg h _ _
    · rw [h]
      rfl

/-- C5 witness: with `delay_features=False` the output equals the target
stage alone, on a concrete one-column table. -/
theorem disabled_flags_add_no_columns_witness :
    transform ⟨2, false, true, 1, 0⟩ (some ⟨1, [("a", [some 1])]⟩) none =
      targetStage ⟨2, false, true, 1, 0⟩ ⟨1, [("a", [some 1])]⟩ none :=
  disabled_flags_add_no_columns.1 ⟨2, false, true, 1, 0⟩ ⟨1, [("a", [some 1])]⟩ none rfl

/-- C7: `transform` is a pure function of its inputs and configuration; in
particular the stored `random_state` seed is never read, so two
configurations differing only in the seed produce identical outputs on every
input. -/
theorem transform_ignores_random_state (md : Int) (df dt : Bool) (g s1 s2 : Int)
    (X? : Option Frame) (y : Option (List Cell)) :
    transform ⟨md, df, dt, g, s1⟩ X? y = transform ⟨md, df, dt, g, s2⟩ X? y := rfl

/-- C8: `transform` is total without validating its configuration: for every
configuration (any integer `max_delay` and `gap`, so also malformed negative
values) and all inputs it returns a well-defined table that begins with the
input's columns, and a negative `max_delay` is silently accepted, both delay
ranges being empty so that the input is returned unchanged. -/
theorem no_validation_total :
    (∀ (c : DelayedFeatureTransformer) (X : Frame) (y : Option (List Cell)),
      X.names <+: (transform c (some X) y).names) ∧
    (∀ (c : DelayedFeatureTransformer) (X : Frame) (y : Option (List Cell)),
      c.max_delay < 0 → transform c (some X) y = X) := by
  constructor
  · intro c X y
    rw [transform_eq]
    have h1 : X.names <+: (featureStage c X).names := by
      cases hcond : (c.delay_features && !X.isEmpty) with
      | true => rw [featureStage_pos hcond]; exact names_prefix_assign _ _
      | false => rw [featureStage_neg hcond]
    have h2 : (featureStage c X).names <+:
        (targetStage c (featureStage c X) y).names := by
      cases y with
      | none => exact List.prefix_rfl
      | some ys =>
          cases hdt : c.delay_target with
          | true => rw [targetStage_some_pos hdt]; exact names_prefix_assign _ _
          | false => rw [targetStage_some_neg hdt]
    exact h1.trans h2
  · intro c X y hmd
    have hfb : featureBindings X c.max_delay = [] := by
      unfold featureBindings
      rw [intRange_eq_nil (by omega)]
      rfl
    have htb : ∀ ys : List Cell,
        targetBindings c.start_delay_for_target c.max_delay ys = [] := by
      intro ys
      unfold targetBindings
      rw [intRange_eq_nil (by have := start_nonneg c; omega)]
      rfl
    rw [transform_eq]
    have h1 : featureStage c X = X := by
      cases hcond : (c.delay_features && !X.isEmpty) with
      | true => rw [featureStage_pos hcond, hfb]; rfl
      | false => exact featureStage_neg hcond
    rw [h1]
    cases y with
    | none => rfl
    | some ys =>
        cases hdt : c.delay_target with
        | true => rw [targetStage_some_pos hdt, htb]; rfl
        | false => exact targetStage_some_neg hdt _ _

/-- C8 witness: `max_delay = -3` is accepted and returns the input
unchanged. -/
theorem no_validation_total_witness :
    transform ⟨-3, true, true, 1, 0⟩ (some ⟨2, [("a", [some 1, some 2])]⟩)
        (some [some 4, some 5]) = ⟨2, [("a", [some 1, some 2])]⟩ :=
  no_validation_total.2 ⟨-3, true, true, 1, 0⟩ ⟨2, [("a", [some 1, some 2])]⟩
    (some [some 4, some 5]) (by decide)

/-- C9 (amended): when `X` is absent, `delay_target` is true, the target `ys`
is non-empty and at least one target delay is produced (that is,
`start_delay_for_target ≤ max_delay`), the returned table has `ys.length`
rows: assigning the first shifted target into the empty frame makes pandas
adopt the target's index.  (The unamended claim fails when the delay range is
empty, e.g. `max_delay = 0` with `gap = 0`: see the counterexample.) -/
theorem empty_X_target_rows (c : DelayedFeatureTransformer) (ys : List Cell)
    (hdt : c.delay_target = true) (hy : ys ≠ [])
    (hr : c.start_delay_for_target ≤ c.max_delay) :
    (transform c none (some ys)).nrows = ys.length := by
  have h0 : 0 ≤ c.start_delay_for_target := start_nonneg c
  have hlen : (shiftSeries c.start_delay_for_target ys).length = ys.length :=
    shiftSeries_length h0 ys
  have hne : shiftSeries c.start_delay_for_target ys ≠ [] := by
    intro hnil
    rw [hnil] at hlen
    exact hy (List.length_eq_zero.mp hlen.symm)
  show (targetStage c (featureStage c ⟨0, []⟩) (some ys)).nrows = ys.length
  rw [featureStage_empty, targetStage_some_pos hdt]
  unfold targetBindings
  rw [intRange_eq_cons (by omega), List.map_cons]
  show (((Frame.mk 0 []).setCol (targetDelayName c.start_delay_for_target)
      (shiftSeries c.start_delay_for_target ys)).assign _).nrows = ys.length
  rw [assign_nrows (by rw [setCol_empty_nrows hne, hlen]; simpa using hy)]
  rw [setCol_empty_nrows hne, hlen]

/-- C9 witness: `X` absent, default configuration, `y` of length 3 gives a
3-row output. -/
theorem empty_X_target_rows_witness :
    (transform ⟨2, true, true, 1, 0⟩ none (some [some 1, some 2, some 3])).nrows = 3 :=
  empty_X_target_rows ⟨2, true, true, 1, 0⟩ [some 1, some 2, some 3] rfl (by decide)
    (by decide)

/-- C9 counterexample: with `max_delay = 0` and `gap = 0` the target-delay
range `[1, 0]` is empty, so the output of `transform` on an absent `X` and a
two-element target has 0 rows, not 2. -/
theorem empty_X_target_rows_cex :
    (transform ⟨0, true, true, 0, 0⟩ none (some [some 1, some 2])).nrows ≠
      ([some 1, some 2] : List Cell).length := by
  decide

/-- C4: an absent `X` is treated exactly as the zero-row, zero-column table,
and in that case every column of the output is one of the generated
target-delay columns (so no feature-delay column is ever produced, and target
delays appear only when `delay_target` is true and `y` is provided). -/
theorem absent_X_only_target_delays :
    (∀ (c : DelayedFeatureTransformer) (y : Option (List Cell)),
      transform c none y = transform c (some ⟨0, []⟩) y) ∧
    (∀ (c : DelayedFeatureTransformer) (y : Option (List Cell)) (n : String),
      n ∈ (transform c none y).names →
      ∃ ys, y = some ys ∧ c.delay_target = true ∧
        n ∈ (targetBindings c.start_delay_for_target c.max_delay ys).map Prod.fst) := by
  constructor
  · intro c y
    rfl
  · intro c y n hn
    have hshape : transform c none y = targetStage c ⟨0, []⟩ y := by
      show targetStage c (featureStage c ⟨0, []⟩) y = _
      rw [featureStage_empty]
    cases y with
    | none =>
        rw [hshape] at hn
        cases hn
    | some ys =>
        cases hdt : c.delay_target with
        | false =>
            rw [hshape, targetStage_some_neg hdt] at hn
            cases hn
        | true =>
            refine ⟨ys, rfl, rfl, ?_⟩
            rw [hshape, targetStage_some_pos hdt] at hn
            rcases mem_names_assign hn with h | h
            · cases h
            · exact h

/-- C4 witness: with the default configuration and a one-element target, the
output of `transform` on an absent `X` contains the column `target_delay_0`,
and it is a generated target-delay column. -/
theorem absent_X_only_target_delays_witness :
    ∃ ys, (some [some 1] : Option (List Cell)) = some ys ∧
      (⟨2, true, true, 1, 0⟩ : DelayedFeatureTransformer).delay_target = true ∧
      "target_delay_0" ∈ (targetBindings
        (⟨2, true, true, 1, 0⟩ : DelayedFeatureTransformer).start_delay_for_target
        (⟨2, true, true, 1, 0⟩ : DelayedFeatureTransformer).max_delay [some 1]).map
          Prod.fst :=
  absent_X_only_target_delays.2 ⟨2, true, true, 1, 0⟩ (some [some 1]) "target_delay_0"
    (by decide)

/-- C6 (amended): every original column of `X` whose name is not among the
generated delay-column names (the feature-delay names, and the target-delay
names only when `delay_target` is true and `y` is provided) is present, with
its values unchanged, in the output of `transform`, for any `X` with at
least one row; only generated delay columns are added.  (The unamended claim
fails when a generated name collides with an original column name, which the
generated values then silently overwrite: see the counterexample.) -/
theorem original_columns_retained (c : DelayedFeatureTransformer) (X : Frame)
    (y : Option (List Cell)) (n : String) (w : List Cell)
    (h0 : X.nrows ≠ 0) (hmem : (n, w) ∈ X.cols)
    (hf : n ∉ (featureBindings X c.max_delay).map Prod.fst)
    (ht : ∀ ys, y = some ys → c.delay_target = true →
      n ∉ (targetBindings c.start_delay_for_target c.max_delay ys).map Prod.fst) :
    (n, w) ∈ (transform c (some X) y).cols := by
  rw [transform_eq]
  have h1 : (n, w) ∈ (featureStage c X).cols := by
    cases hcond : (c.delay_features && !X.isEmpty) with
    | true =>
        rw [featureStage_pos hcond]
        exact assign_mem_of_not_mem h0 hf hmem
    | false =>
        rw [featureStage_neg hcond]
        exact hmem
  have h0' : (featureStage c X).nrows ≠ 0 := by rw [featureStage_nrows h0]; exact h0
  cases y with
  | none => exact h1
  | some ys =>
      cases hdt : c.delay_target with
      | true =>
          rw [targetStage_some_pos hdt]
          exact assign_mem_of_not_mem h0' (ht ys rfl hdt) h1
      | false =>
          rw [targetStage_some_neg hdt]
          exact h1

/-- C6 witness: the original column `a` survives unchanged through the
default configuration. -/
theorem original_columns_retained_witness :
    ("a", [some 1, some 2]) ∈
      (transform ⟨2, true, true, 1, 0⟩ (some ⟨2, [("a", [some 1, some 2])]⟩)
        none).cols :=
  original_columns_retained ⟨2, true, true, 1, 0⟩ ⟨2, [("a", [some 1, some 2])]⟩ none
    "a" [some 1, some 2] (by decide) (by decide) (by decide)
    (by intro ys hys hdt; cases hys)

/-- C6 counterexample: an original column literally named `a_delay_1`
alongside a column `a` is overwritten by the generated delay of `a`, so its
original values are absent from the output. -/
theorem original_column_overwritten_cex :
    ("a_delay_1", [some 7, some 8]) ∉
      (transform ⟨2, true, true, 1, 0⟩
        (some ⟨2, [("a", [some 1, some 2]), ("a_delay_1", [some 7, some 8])]⟩)
        none).cols := by
  decide

/-- C1 (amended): when `delay_features` is true and `X` is non-empty, then
for every original column `(n, vals)` of a well-formed `X` (columns of length
`nrows`, pairwise distinct generated names — always the case for decimal
delay numerals) and every `t` in `[1, max_delay]` whose generated name
`n_delay_t` is not also a generated target-delay name (the names collide
exactly when `n = "target"`, see the counterexample), the output of
`transform` has a column `n_delay_t` equal to `vals` shifted by `t`: missing
at rows `i < t` and the value of `vals` at `i - t` otherwise.  In particular
the spec's example `a=[10,20,30,40]`, `max_delay=2`, `gap=1` yields
`a_delay_1=[NA,10,20,30]` and `a_delay_2=[NA,NA,10,20]`. -/
theorem feature_delay_columns_correct :
    (∀ (c : DelayedFeatureTransformer) (X : Frame) (y : Option (List Cell))
      (n : String) (vals : List Cell) (t : Int),
      c.delay_features = true → X.isEmpty = false →
      (∀ p ∈ X.cols, p.2.length = X.nrows) →
      (n, vals) ∈ X.cols → t ∈ intRange 1 (c.max_delay + 1) →
      ((featureBindings X c.max_delay).map Prod.fst).Nodup →
      (∀ ys, y = some ys → c.delay_target = true →
        delayName n t ∉ (targetBindings c.start_delay_for_target c.max_delay ys).map
          Prod.fst) →
      (transform c (some X) y).col? (delayName n t) = some (shiftSeries t vals) ∧
        ∀ i : Nat, i < X.nrows →
          cell (shiftSeries t vals) i =
            if i < t.toNat then none else cell vals (i - t.toNat)) ∧
    transform ⟨2, true, true, 1, 0⟩
        (some ⟨4, [("a", [some 10, some 20, some 30, some 40])]⟩) none =
      ⟨4, [("a", [some 10, some 20, some 30, some 40]),
           ("a_delay_1", [none, some 10, some 20, some 30]),
           ("a_delay_2", [none, none, some 10, some 20])]⟩ := by
  constructor
  · intro c X y n vals t hf hne hlen hmem ht hnodup hnotarget
    have h0 : X.nrows ≠ 0 := (not_isEmpty_iff.mp hne).1
    have hbounds := mem_intRange.mp ht
    have ht0 : 0 ≤ t := by omega
    have hvlen : vals.length = X.nrows := hlen (n, vals) hmem
    have hshiftlen : (shiftSeries t vals).length = X.nrows := by
      rw [shiftSeries_length ht0]
      exact hvlen
    have hcond : (c.delay_features && !X.isEmpty) = true := by rw [hf, hne]; rfl
    have hfcol : (featureStage c X).col? (delayName n t) =
        some (shiftSeries t vals) := by
      rw [featureStage_pos hcond, assign_col? h0,
        lookupLast_of_nodup hnodup (mem_featureBindings hmem ht)]
      simp [align_eq_self hshiftlen]
    have h0' : (featureStage c X).nrows ≠ 0 := by rw [featureStage_nrows h0]; exact h0
    constructor
    · rw [transform_eq]
      cases y with
      | none => exact hfcol
      | some ys =>
          cases hdt : c.delay_target with
          | false => rw [targetStage_some_neg hdt]; exact hfcol
          | true =>
              rw [targetStage_some_pos hdt, assign_col? h0',
                lookupLast_eq_none_iff.mpr (hnotarget ys rfl hdt)]
              exact hfcol
    · intro i hi
      exact cell_shiftSeries ht0 (by rw [hvlen]; exact hi)
  · decide

/-- C1 witness: column `b = [5, 6]` with `max_delay = 2` gains
`b_delay_1 = [NA, 5]`. -/
theorem feature_delay_columns_correct_witness :
    (transform ⟨2, true, true, 1, 0⟩ (some ⟨2, [("b", [some 5, some 6])]⟩)
        none).col? (delayName "b" 1) = some (shiftSeries 1 [some 5, some 6]) :=
  (feature_delay_columns_correct.1 ⟨2, true, true, 1, 0⟩
    ⟨2, [("b", [some 5, some 6])]⟩ none "b" [some 5, some 6] 1 rfl (by decide)
    (by decide) (by decide) (by decide) (by decide)
    (by intro ys hys hdt; cases hys)).1

/-- C1 counterexample: with the default configuration, a feature column
literally named `target` and a provided target `y = [1, 2]`, the output
column named by combining `target` and the delay 1 holds the shifted `y`,
not the shifted feature values `[10, 20]` the claim requires. -/
theorem feature_delay_target_name_collision_cex :
    (transform ⟨2, true, true, 1, 0⟩ (some ⟨2, [("target", [some 10, some 20])]⟩)
        (some [some 1, some 2])).col? (delayName "target" 1) ≠
      some (shiftSeries 1 [some 10, some 20]) := by
  decide

/-- C2: when `delay_target` is true and `y` is provided, for every `t` in
`[start_delay_for_target, max_delay]` the output of `transform` on a
non-empty well-formed `X` (aligned `y`, pairwise distinct generated
target-delay names — always the case for decimal delay numerals) has a
column `target_delay_t` equal to `y` shifted by `t`: missing at rows
`i < t` and the value of `y` at `i - t` otherwise; `start_delay_for_target`
is 1 when `gap = 0` and 0 when `gap > 0`; and the spec's example `y=[1,2,3,4]`,
`max_delay=1`, `gap=0`, no features, yields exactly the single column
`target_delay_1=[NA,1,2,3]` and no `target_delay_0`. -/
theorem target_delay_columns_correct :
    (∀ (c : DelayedFeatureTransformer) (X : Frame) (ys : List Cell) (t : Int),
      c.delay_target = true → X.nrows ≠ 0 → ys.length = X.nrows →
      t ∈ intRange c.start_delay_for_target (c.max_delay + 1) →
      ((targetBindings c.start_delay_for_target c.max_delay ys).map Prod.fst).Nodup →
      (transform c (some X) (some ys)).col? (targetDelayName t) =
          some (shiftSeries t ys) ∧
        ∀ i : Nat, i < X.nrows →
          cell (shiftSeries t ys) i =
            if i < t.toNat then none else cell ys (i - t.toNat)) ∧
    (∀ c : DelayedFeatureTransformer, c.gap = 0 → c.start_delay_for_target = 1) ∧
    (∀ c : DelayedFeatureTransformer, 0 < c.gap → c.start_delay_for_target = 0) ∧
    transform ⟨1, true, true, 0, 0⟩ none (some [some 1, some 2, some 3, some 4]) =
      ⟨4, [("target_delay_1", [none, some 1, some 2, some 3])]⟩ := by
  refine ⟨?_, ?_, ?_, by decide⟩
  · intro c X ys t hdt h0 hy ht hnodup
    have hbounds := mem_intRange.mp ht
    have hstart := start_nonneg c
    have ht0 : 0 ≤ t := by omega
    have h0' : (featureStage c X).nrows ≠ 0 := by rw [featureStage_nrows h0]; exact h0
    have hshiftlen : (shiftSeries t ys).length = X.nrows := by
      rw [shiftSeries_length ht0]
      exact hy
    constructor
    · rw [transform_eq, targetStage_some_pos hdt, assign_col? h0',
        featureStage_nrows h0, lookupLast_of_nodup hnodup (mem_targetBindings ht)]
      simp [align_eq_self hshiftlen]
    · intro i hi
      exact cell_shiftSeries ht0 (by rw [hy]; exact hi)
  · intro c hg
    unfold DelayedFeatureTransformer.start_delay_for_target
    rw [if_pos hg]
  · intro c hg
    unfold DelayedFeatureTransformer.start_delay_for_target
    rw [if_neg (by omega)]

/-- C2 witness: `gap = 0` and `max_delay = 1` produce `target_delay_1` as the
shift of the target on a concrete two-row table. -/
theorem target_delay_columns_correct_witness :
    (transform ⟨1, true, true, 0, 0⟩ (some ⟨2, [("a", [some 1, some 2])]⟩)
        (some [some 7, some 8])).col? (targetDelayName 1) =
      some (shiftSeries 1 [some 7, some 8]) :=
  (target_delay_columns_correct.1 ⟨1, true, true, 0, 0⟩ ⟨2, [("a", [some 1, some 2])]⟩
    [some 7, some 8] 1 rfl (by decide) (by decide) (by decide) (by decide)).1

/-- C10: the generated feature-delay name of a column literally named
`target` coincides with the generated target-delay name for the same delay;
and whenever `delay_features` and `delay_target` are both true, `X` is
non-empty with a column named `target` and `y` is provided, then for every
delay `t` produced for both (`t` in `[start_delay_for_target, max_delay]`
with `1 ≤ t`), every output column carrying that name holds the shifted
target values — the feature-delay values of `X["target"]` are overwritten. -/
theorem target_name_collision :
    (∀ t : Int, delayName "target" t = targetDelayName t) ∧
    (∀ (c : DelayedFeatureTransformer) (X : Frame) (ys vals : List Cell) (t : Int),
      c.delay_features = true → c.delay_target = true → X.isEmpty = false →
      ys.length = X.nrows → ("target", vals) ∈ X.cols →
      t ∈ intRange c.start_delay_for_target (c.max_delay + 1) → 1 ≤ t →
      ((targetBindings c.start_delay_for_target c.max_delay ys).map Prod.fst).Nodup →
      (transform c (some X) (some ys)).col? (targetDelayName t) =
          some (shiftSeries t ys) ∧
        ∀ w, (targetDelayName t, w) ∈ (transform c (some X) (some ys)).cols →
          w = shiftSeries t ys) := by
  constructor
  · intro t
    have h : "target" ++ "_delay_" = "target_delay_" := by decide
    show ("target" ++ "_delay_") ++ toString t = "target_delay_" ++ toString t
    rw [h]
  · intro c X ys vals t hf hdt hne hy hmem ht h1 hnodup
    have h0 : X.nrows ≠ 0 := (not_isEmpty_iff.mp hne).1
    have hbounds := mem_intRange.mp ht
    have ht0 : 0 ≤ t := by omega
    have h0' : (featureStage c X).nrows ≠ 0 := by rw [featureStage_nrows h0]; exact h0
    have hshiftlen : (shiftSeries t ys).length = X.nrows := by
      rw [shiftSeries_length ht0]
      exact hy
    have hlook : lookupLast (targetBindings c.start_delay_for_target c.max_delay ys)
        (targetDelayName t) = some (shiftSeries t ys) :=
      lookupLast_of_nodup hnodup (mem_targetBindings ht)
    constructor
    · rw [transform_eq, targetStage_some_pos hdt, assign_col? h0',
        featureStage_nrows h0, hlook]
      simp [align_eq_self hshiftlen]
    · intro w hw
      rw [transform_eq, targetStage_some_pos hdt] at hw
      have hval := assign_mem_last h0' hlook hw
      rwa [featureStage_nrows h0, align_eq_self hshiftlen] at hval

/-- C10 witness: with the default configuration, a `target` feature column
`[10, 20]` and `y = [1, 2]`, the single `target_delay_1` column holds the
shifted `y` values `[NA, 1]`. -/
theorem target_name_collision_witness :
    (transform ⟨2, true, true, 1, 0⟩ (some ⟨2, [("target", [some 10, some 20])]⟩)
        (some [some 1, some 2])).col? (targetDelayName 1) =
      some (shiftSeries 1 [some 1, some 2]) :=
  (target_name_collision.2 ⟨2, true, true, 1, 0⟩ ⟨2, [("target", [some 10, some 20])]⟩
    [some 1, some 2] [some 10, some 20] 1 rfl rfl (by decide) (by decide) (by decide)
    (by decide) (by decide) (by decide)).1

end EvalML
